import Mathlib

/-!
Shallow embedding of the qarray ground-state solver core
(src/src/core_python/core_python.py,
 src/src/core_python/charge_configuration_generators/closed_dot_configurations.py,
 src/qarray/classes/_helper_functions.py,
 src/qarray/jax_brute_force_core/closed.py,
 src/qarray/brute_force_python/charge_configuration_generators/open_dot_configurations.py).

Machine floats are modelled by exact rationals; the OSQP solve, an
outside library call returning res.x, is modelled as an arbitrary function
supplied by the caller.
-/

namespace QArray

/-- np.rint: round to nearest integer, halves to the even integer
(the remainder x − ⌊x⌋ decides between ⌊x⌋ and ⌊x⌋ + 1). -/
def rint (x : ℚ) : ℤ :=
  if x - ⌊x⌋ < 1/2 then ⌊x⌋
  else if 1/2 < x - ⌊x⌋ then ⌊x⌋ + 1
  else if ⌊x⌋ % 2 = 0 then ⌊x⌋ else ⌊x⌋ + 1

/-- Dot product of two vectors (lists of rationals). -/
def dotQ (a b : List ℚ) : ℚ := (List.zipWith (fun x y => x * y) a b).sum

/-- Matrix–vector product, the matrix given as a list of rows. -/
def matVec (A : List (List ℚ)) (v : List ℚ) : List ℚ := A.map (fun row => dotQ row v)

/-- np.einsum with signature (...i, ij, ...j) on a single vector d: dᵀ A d. -/
def quadForm (A : List (List ℚ)) (d : List ℚ) : ℚ := dotQ d (matVec A d)

/-- The free-energy quadratic form used to score an integer candidate m against
the continuous target ncont: (m − ncont)ᵀ cddInv (m − ncont)
(core_python.py, the einsum computing F). -/
def freeEnergy (cddInv : List (List ℚ)) (ncont : List ℚ) (m : List ℤ) : ℚ :=
  quadForm cddInv (List.zipWith (fun z x => (z : ℚ) - x) m ncont)

/-- np.argmin followed by indexing: the first element of the list attaining the
minimal key, none on an empty list (np.argmin raises ValueError on an empty
array). -/
def argminFirst {α β : Type} [LinearOrder β] (f : α → β) : List α → Option α
  | [] => none
  | x :: xs =>
    match argminFirst f xs with
    | none => some x
    | some y => if f x ≤ f y then some x else some y

/-! ## compute_argmin_open (core_python.py lines 118-140)

The branch condition per dot is |remainder − 0.5| < threshold/2 with
remainder = x − ⌊x⌋ (np.argwhere on that condition); non-branched dots are
set to np.rint(x).  The candidate list enumerates
itertools.product([np.floor, np.ceil], repeat=k) over the branched dots
in ascending index order, the last branched dot varying fastest, floor
preceding ceil — which is exactly the order produced by the recursion
below (the head of the list is the slowest-varying position). -/

/-- The per-dot branch condition of compute_argmin_open. -/
def branchedOpen (t x : ℚ) : Prop := |x - ⌊x⌋ - 1/2| < t / 2

instance (t x : ℚ) : Decidable (branchedOpen t x) := by
  unfold branchedOpen; infer_instance

/-- The list n_list built by compute_argmin_open, in generation order. -/
def openCandList (t : ℚ) : List ℚ → List (List ℤ)
  | [] => [[]]
  | x :: xs =>
    let rest := openCandList t xs
    if branchedOpen t x then
      rest.map (fun r => ⌊x⌋ :: r) ++ rest.map (fun r => ⌈x⌉ :: r)
    else
      rest.map (fun r => rint x :: r)

/-- compute_argmin_open: score every candidate with the free-energy form and
return the first one attaining the minimum (np.argmin takes the first
occurrence); none when the candidate list is empty (np.argmin raises). -/
def compute_argmin_open (ncont : List ℚ) (t : ℚ) (cddInv : List (List ℚ)) :
    Option (List ℤ) :=
  argminFirst (freeEnergy cddInv ncont) (openCandList t ncont)

/-! ## closed_charge_configurations
(charge_configuration_generators/closed_dot_configurations.py) -/

/-- itertools.product on [0, 1] repeated k times, first coordinate varying slowest. -/
def binaryLists : ℕ → List (List ℤ)
  | 0 => [[]]
  | k + 1 =>
    (binaryLists k).map (fun r => 0 :: r) ++ (binaryLists k).map (fun r => 1 :: r)

/-- closed_charge_configurations: all floor/floor+1 choices whose total equals
n_charge; an empty list when the achievable range does not bracket n_charge. -/
def closed_charge_configurations (ncont : List ℚ) (nCharge : ℤ) : List (List ℤ) :=
  let floorValues := ncont.map (fun x => ⌊x⌋)
  if floorValues.sum > nCharge then []
  else if (floorValues.map (fun v => v + 1)).sum < nCharge then []
  else
    ((binaryLists ncont.length).filter
        (fun b => decide (b.sum = nCharge - floorValues.sum))).map
      (fun b => List.zipWith (fun bi fi => bi + fi) b floorValues)

/-! ## compute_argmin_closed (core_python.py lines 80-115)

In the branch with no exact charge target the source computes
args, sorted_delta = np.argsort(delta), np.sort(delta) and then immediately
reassigns args = np.arange(0, n_continuous.size), so the floor/ceil set is
args[args < threshold_index] = 0, …, threshold_index − 1: the first
threshold_index dot indices, regardless of the sorted order. -/

/-- Insertion of one element into a sorted list (ascending). -/
def insertSorted (x : ℚ) : List ℚ → List ℚ
  | [] => [x]
  | y :: ys => if x ≤ y then x :: y :: ys else y :: insertSorted x ys

/-- np.sort: ascending sort. -/
def sortAsc (l : List ℚ) : List ℚ := l.foldr insertSorted []

/-- np.searchsorted(a, v, side right) on an ascending-sorted a: the number
of entries that are ≤ v. -/
def searchsortedRight (a : List ℚ) (v : ℚ) : ℕ := a.countP (fun x => decide (x ≤ v))

/-- delta = np.abs(n_remainder − 0.5). -/
def closedDelta (ncont : List ℚ) : List ℚ := ncont.map (fun x => |x - ⌊x⌋ - 1/2|)

/-- threshold_index = max(searchsorted(sort(delta), threshold/2, side right),
min(cdd_inv.shape[0], 3)). -/
def closedThresholdIndex (ncont : List ℚ) (t : ℚ) (nDot : ℕ) : ℕ :=
  max (searchsortedRight (sortAsc (closedDelta ncont)) (t / 2)) (min nDot 3)

/-- floor_ceil_args = args[args < threshold_index] with
args = np.arange(0, n_continuous.size): the indices below threshold_index. -/
def closedFloorCeilArgs (ncont : List ℚ) (t : ℚ) (nDot : ℕ) : List ℕ :=
  (List.range ncont.length).filter (fun i => decide (i < closedThresholdIndex ncont t nDot))

/-- The candidate list of the no-target branch of compute_argmin_closed:
floor/ceil product over the first k dots, np.rint on the rest, in the
generation order of itertools.product (last branched dot fastest). -/
def closedCandList : ℕ → List ℚ → List (List ℤ)
  | _, [] => [[]]
  | 0, x :: xs => (closedCandList 0 xs).map (fun r => rint x :: r)
  | k + 1, x :: xs =>
    let rest := closedCandList k xs
    rest.map (fun r => ⌊x⌋ :: r) ++ rest.map (fun r => ⌈x⌉ :: r)

/-- compute_argmin_closed: with an exact charge target the candidates come from
closed_charge_configurations, otherwise from the floor/ceil/round branching;
the first minimum-free-energy candidate is returned, none on an empty
candidate list (np.argmin raises ValueError there). -/
def compute_argmin_closed (ncont : List ℚ) (t : ℚ) (cddInv : List (List ℚ))
    (nCharge : Option ℤ) : Option (List ℤ) :=
  match nCharge with
  | none =>
    argminFirst (freeEnergy cddInv ncont)
      (closedCandList (closedThresholdIndex ncont t cddInv.length) ncont)
  | some c =>
    argminFirst (freeEnergy cddInv ncont) (closed_charge_configurations ncont c)

/-- The per-dot shape of every open-mode candidate. -/
def openDotRel (t : ℚ) (x : ℚ) (z : ℤ) : Prop :=
  if branchedOpen t x then z = ⌊x⌋ ∨ z = ⌈x⌉ else z = rint x

/-! ## Lemmas about closed_charge_configurations -/

/-- The per-dot shape of every closed-mode candidate: floor or floor + 1. -/
def closedDotRel (x : ℚ) (z : ℤ) : Prop := z = ⌊x⌋ ∨ z = ⌊x⌋ + 1

/-! ## Python backend single-point and batch solves (core_python.py)

The OSQP solve is an external library call; res.x is modelled as an arbitrary
function qp of the linear term q that the source hands to prob.update. -/

/-- np.clip(x, lo, hi). -/
def clipQ (lo hi x : ℚ) : ℚ := max lo (min x hi)

/-- Sequential map of a fallible single-point solve over a batch: the python
list(map(f, vg)) where a raised exception aborts the whole call. -/
def mapOpt {α β : Type} (f : α → Option β) : List α → Option (List β)
  | [] => some []
  | x :: xs =>
    match f x with
    | none => none
    | some y =>
      match mapOpt f xs with
      | none => none
      | some ys => some (y :: ys)

/-- Model of _ground_state_open_0d: update q = −cdd_inv·cgd·vg, solve, clip the
solution at zero from below, then the open integer correction. -/
def _ground_state_open_0d (qp : List ℚ → List ℚ) (cgd cddInv : List (List ℚ))
    (t : ℚ) (vg : List ℚ) : Option (List ℤ) :=
  let q := (matVec cddInv (matVec cgd vg)).map (fun a => -a)
  let ncont := (qp q).map (fun a => max 0 a)
  compute_argmin_open ncont t cddInv

/-- Model of _ground_state_closed_0d: update q, solve, clip the solution to
[0, n_charge], then the closed integer correction with the exact target. -/
def _ground_state_closed_0d (qp : List ℚ → List ℚ) (nCharge : ℤ)
    (cgd cddInv : List (List ℚ)) (t : ℚ) (vg : List ℚ) : Option (List ℤ) :=
  let q := (matVec cddInv (matVec cgd vg)).map (fun a => -a)
  let ncont := (qp q).map (clipQ 0 nCharge)
  compute_argmin_closed ncont t cddInv (some nCharge)

/-- ground_state_open_python: map the single-point solve over the batch; a
raised exception at any point aborts the whole call (Option.none). -/
def ground_state_open_python (qp : List ℚ → List ℚ) (cgd cddInv : List (List ℚ))
    (t : ℚ) (vg : List (List ℚ)) : Option (List (List ℤ)) :=
  mapOpt (_ground_state_open_0d qp cgd cddInv t) vg

/-- ground_state_closed_python: map the single-point closed solve over the
batch. -/
def ground_state_closed_python (qp : List ℚ → List ℚ) (nCharge : ℤ)
    (cgd cddInv : List (List ℚ)) (t : ℚ) (vg : List (List ℚ)) :
    Option (List (List ℤ)) :=
  mapOpt (_ground_state_closed_0d qp nCharge cgd cddInv t) vg

/-! ## jax brute-force closed core (jax_brute_force_core/closed.py)

The candidate universe is the full cartesian product of 0…n_max over n_dot slots
(open_change_configurations_brute_force_jax); candidates whose total differs
from n_charge get their free energy masked to +∞, and at T = 0 the hard
argmin over the masked energies is returned.  np.meshgrid enumerates the
same set in a different order; only membership matters below. -/

/-- All integer occupation vectors of length nDot with entries in
0, …, nMax. -/
def openConfigs : ℕ → ℕ → List (List ℤ)
  | 0, _ => [[]]
  | d + 1, nMax =>
    ((List.range (nMax + 1)).map (fun (a : ℕ) => (a : ℤ))).flatMap
      (fun a => (openConfigs d nMax).map (fun r => a :: r))

/-- F + mask of the jax closed brute-force core: +∞ on candidates whose sum
is not n_charge, the free energy against v_dash = cgd·vg otherwise. -/
def jaxMaskedF (cddInv : List (List ℚ)) (vdash : List ℚ) (c : ℤ)
    (m : List ℤ) : WithTop ℚ :=
  if m.sum = c then ((freeEnergy cddInv vdash m : ℚ) : WithTop ℚ) else ⊤

/-- Model of _ground_state_closed_0d of the jax brute-force core at T = 0:
hard argmin of the masked free energies. -/
def ground_state_closed_jax_brute_force_0d (cddInv cgd : List (List ℚ))
    (c : ℤ) (nDot nMax : ℕ) (vg : List ℚ) : Option (List ℤ) :=
  argminFirst (jaxMaskedF cddInv (matVec cgd vg) c) (openConfigs nDot nMax)

/-- One row of n_list * weights[:, None]. -/
def scaleRow (w : ℚ) (row : List ℤ) : List ℚ := row.map (fun (z : ℤ) => w * (z : ℚ))

/-- Pointwise sum of two rows. -/
def addRows (a b : List ℚ) : List ℚ := List.zipWith (fun x y => x + y) a b

/-- The expression (n_list * weights[:, None]).sum(axis=0): the weighted average of the
candidate rows, as produced by the T > 0 soft-argmin branch; the softmax
weights themselves are transcendental and enter as an arbitrary weight
vector here. -/
def weightedAvg (w : List ℚ) (rows : List (List ℤ)) (d : ℕ) : List ℚ :=
  (List.zipWith scaleRow w rows).foldl addRows (List.replicate d 0)

/-! ## The batch entry points (_helper_functions.py)

_ground_state_open / _ground_state_closed validate the trailing axis, flatten
the batch, dispatch to a backend, check the post-solve invariant assertion
and reshape back.  The backend is a parameter (one single-point solver); the
numpy array of rank ≥ 1 is modelled as its shape list plus the flat data. -/

/-- The message of the ValueError raised by _validate_vg; it interpolates
only n_gate, never the actual shape of vg. -/
def errMsgVg (nGate : ℕ) : String :=
  "The shape of vg is in correct it should be of shape (..., n_gate) = (...," ++
    toString nGate ++ ")"

/-- np.reshape to an explicit target shape: succeeds exactly when the data
size matches the product of the target shape. -/
def reshapeTo {α : Type} (data : List α) (shape : List ℕ) :
    Option (List ℕ × List α) :=
  if data.length = shape.prod then some (shape, data) else none

/-- vg.reshape(-1, n_gate): cut the flat data into rows of length m. -/
def chunks {α : Type} (m : ℕ) : List α → List (List α)
  | [] => []
  | x :: xs => (x :: xs.take (m - 1)) :: chunks m (xs.drop (m - 1))
termination_by l => l.length
decreasing_by simp [List.length_drop]; omega

/-- np.isclose with its default tolerances rtol = 1e-5, atol = 1e-8:
|a − b| ≤ atol + rtol·|b|. -/
def iscloseInt (a b : ℤ) : Prop :=
  |(a : ℚ) - (b : ℚ)| ≤ 1/100000000 + |(b : ℚ)| / 100000

instance (a b : ℤ) : Decidable (iscloseInt a b) := by
  unfold iscloseInt; infer_instance

/-- The post-solve assertion of _ground_state_open:
np.all(result.astype(int) >= 0). -/
def assertOpenHolds (rows : List (List ℤ)) : Bool :=
  rows.all (fun row => row.all (fun z => decide (0 ≤ z)))

/-- The post-solve assertion of _ground_state_closed:
np.all(np.isclose(result.sum(axis=-1), n_charge)). -/
def assertClosedHolds (c : ℤ) (rows : List (List ℤ)) : Bool :=
  rows.all (fun row => decide (iscloseInt row.sum c))

/-- Model of _ground_state_open over one backend: validate the trailing axis, flatten,
solve each row, assert non-negativity, reshape to (*leading, n_dot). -/
def _ground_state_open (solver : List ℚ → Option (List ℤ)) (nGate nDot : ℕ)
    (shape : List ℕ) (data : List ℚ) : Except String (List ℕ × List ℤ) :=
  match shape.getLast? with
  | none => Except.error ("IndexError: tuple index out of range")
  | some trailing =>
    if trailing ≠ nGate then Except.error (errMsgVg nGate)
    else
      match mapOpt solver (chunks nGate data) with
      | none => Except.error ("backend raised")
      | some results =>
        if assertOpenHolds results then
          match reshapeTo results.flatten (shape.dropLast ++ [nDot]) with
          | some arr => Except.ok arr
          | none => Except.error ("cannot reshape result")
        else Except.error ("The number of charges is negative something went wrong")

/-- Model of _ground_state_closed over one backend: validate, flatten, solve each row,
assert the total-charge invariant, reshape to (*leading, n_dot). -/
def _ground_state_closed (solver : List ℚ → Option (List ℤ)) (nCharge : ℤ)
    (nGate nDot : ℕ) (shape : List ℕ) (data : List ℚ) :
    Except String (List ℕ × List ℤ) :=
  match shape.getLast? with
  | none => Except.error ("IndexError: tuple index out of range")
  | some trailing =>
    if trailing ≠ nGate then Except.error (errMsgVg nGate)
    else
      match mapOpt solver (chunks nGate data) with
      | none => Except.error ("backend raised")
      | some results =>
        if assertClosedHolds nCharge results then
          match reshapeTo results.flatten (shape.dropLast ++ [nDot]) with
          | some arr => Except.ok arr
          | none => Except.error ("cannot reshape result")
        else Except.error ("The number of charges is not correct something went wrong")

/-! ## Backend dispatch (the match statements of _helper_functions.py) -/

/-- The four backend families of the dispatch. -/
inductive Core | rust | jax | bruteForce | python
deriving DecidableEq, Repr

/-- The literal spellings accepted by the match statements of
_ground_state_open and _ground_state_closed, in source order. -/
def matchCore (s : String) : Option Core :=
  if s = "rust" ∨ s = "Rust" ∨ s = "RUST" ∨ s = "r" then some Core.rust
  else if s = "jax" ∨ s = "Jax" ∨ s = "JAX" ∨ s = "j" then some Core.jax
  else if s = "brute_force" ∨ s = "jax_brute_force" ∨ s = "Jax_brute_force" ∨
      s = "JAX_BRUTE_FORCE" ∨ s = "b" then some Core.bruteForce
  else if s = "python" ∨ s = "Python" ∨ s = "PYTHON" ∨ s = "p" then some Core.python
  else none

/-- The message of the ValueError raised by the catch-all case of the match:
it names rust, jax and python. -/
def coreErrMsg (s : String) : String :=
  "Incorrect core " ++ s ++ ", it must be either rust, jax or python"

/-! ## Mutation model for the batch solve (frame condition)

The only in-place write the python core performs during a batch is
prob.update(q=...), which overwrites the linear term of the warm-started OSQP
problem; the capacitance matrices are only ever read.  The state record below
threads every array the batch touches; each single-point solve returns its
result together with the state it leaves behind. -/

structure SolverState where
  cdd : List (List ℚ)
  cddInv : List (List ℚ)
  cgd : List (List ℚ)
  probQ : List ℚ

/-- prob.update(q = −cdd_inv @ cgd @ vg): the one mutation of the solve. -/
def updateQ (s : SolverState) (vg : List ℚ) : SolverState :=
  { s with probQ := (matVec s.cddInv (matVec s.cgd vg)).map (fun a => -a) }

/-- Model of _ground_state_open_0d with the state threaded explicitly. -/
def ground_state_open_0d_st (qp : List ℚ → List ℚ) (t : ℚ) (vg : List ℚ)
    (s : SolverState) : Option (List ℤ) × SolverState :=
  let s1 := updateQ s vg
  let ncont := (qp s1.probQ).map (fun a => max 0 a)
  (compute_argmin_open ncont t s1.cddInv, s1)

/-- Model of _ground_state_closed_0d with the state threaded explicitly. -/
def ground_state_closed_0d_st (qp : List ℚ → List ℚ) (nCharge : ℤ) (t : ℚ)
    (vg : List ℚ) (s : SolverState) : Option (List ℤ) × SolverState :=
  let s1 := updateQ s vg
  let ncont := (qp s1.probQ).map (clipQ 0 nCharge)
  (compute_argmin_closed ncont t s1.cddInv (some nCharge), s1)

/-- ground_state_open_python with the state threaded through the batch. -/
def ground_state_open_python_st (qp : List ℚ → List ℚ) (t : ℚ)
    (vg : List (List ℚ)) (s : SolverState) :
    List (Option (List ℤ)) × SolverState :=
  vg.foldl
    (fun acc v =>
      let step := ground_state_open_0d_st qp t v acc.2
      (acc.1 ++ [step.1], step.2))
    ([], s)

/-- ground_state_closed_python with the state threaded through the batch. -/
def ground_state_closed_python_st (qp : List ℚ → List ℚ) (nCharge : ℤ) (t : ℚ)
    (vg : List (List ℚ)) (s : SolverState) :
    List (Option (List ℤ)) × SolverState :=
  vg.foldl
    (fun acc v =>
      let step := ground_state_closed_0d_st qp nCharge t v acc.2
      (acc.1 ++ [step.1], step.2))
    ([], s)

/-! ## Theorems -/

theorem argminFirst_mem {α β : Type} [LinearOrder β] (f : α → β) :
    ∀ (l : List α) (m : α), argminFirst f l = some m → m ∈ l := by
  intro l
  induction l with
  | nil => intro m h; simp [argminFirst] at h
  | cons x xs ih =>
    intro m h
    simp only [argminFirst] at h
    cases hx : argminFirst f xs with
    | none => rw [hx] at h; simp at h; simp [h]
    | some y =>
      rw [hx] at h
      by_cases hle : f x ≤ f y
      · simp [hle] at h; simp [h]
      · simp [hle] at h
        right
        exact ih m (h ▸ hx)

theorem argminFirst_eq_none {α β : Type} [LinearOrder β] (f : α → β) :
    ∀ l : List α, argminFirst f l = none ↔ l = [] := by
  intro l
  cases l with
  | nil => simp [argminFirst]
  | cons x xs =>
    simp only [argminFirst]
    constructor
    · intro h
      cases hx : argminFirst f xs with
      | none => rw [hx] at h; simp at h
      | some y => rw [hx] at h; by_cases hle : f x ≤ f y <;> simp [hle] at h
    · intro h; simp at h

theorem argminFirst_le {α β : Type} [LinearOrder β] (f : α → β) :
    ∀ (l : List α) (m : α), argminFirst f l = some m → ∀ y ∈ l, f m ≤ f y := by
  intro l
  induction l with
  | nil => intro m h; simp [argminFirst] at h
  | cons x xs ih =>
    intro m h y hy
    simp only [argminFirst] at h
    cases hx : argminFirst f xs with
    | none =>
      rw [hx] at h
      simp at h
      subst h
      have hxs : xs = [] := (argminFirst_eq_none f xs).mp hx
      subst hxs
      rcases List.mem_cons.mp hy with rfl | hy2
      · exact le_refl _
      · simp at hy2
    | some z =>
      rw [hx] at h
      by_cases hle : f x ≤ f z
      · simp [hle] at h
        subst h
        rcases List.mem_cons.mp hy with rfl | hy2
        · exact le_refl _
        · exact le_trans hle (ih z hx y hy2)
      · simp [hle] at h
        subst h
        rcases List.mem_cons.mp hy with rfl | hy2
        · exact le_of_lt (lt_of_not_le hle)
        · exact ih z hx y hy2

/-! ## Structural lemmas -/

theorem rint_cases (x : ℚ) :
    (rint x = ⌊x⌋ ∧ x - ⌊x⌋ ≤ 1/2) ∨ (rint x = ⌊x⌋ + 1 ∧ 1/2 ≤ x - ⌊x⌋) := by
  unfold rint
  split_ifs with h1 h2 h3
  · left; exact ⟨rfl, le_of_lt h1⟩
  · right; exact ⟨rfl, le_of_lt h2⟩
  · left; exact ⟨rfl, not_lt.mp h2⟩
  · right; exact ⟨rfl, not_lt.mp h1⟩

theorem rint_eq_floor_or_ceil (x : ℚ) : rint x = ⌊x⌋ ∨ rint x = ⌈x⌉ := by
  have hfl : (⌊x⌋ : ℚ) ≤ x := Int.floor_le x
  have hfu : x < ⌊x⌋ + 1 := Int.lt_floor_add_one x
  rcases rint_cases x with ⟨he, _⟩ | ⟨he, hb⟩
  · left; exact he
  · right
    rw [he]
    have hceil : ⌈x⌉ = ⌊x⌋ + 1 := by
      rw [Int.ceil_eq_iff]
      constructor
      · push_cast; linarith
      · push_cast; linarith
    rw [hceil]

theorem rint_nearest (x : ℚ) (z : ℤ) : |x - (rint x : ℚ)| ≤ |x - (z : ℚ)| := by
  have hfl : (⌊x⌋ : ℚ) ≤ x := Int.floor_le x
  have hfu : x < ⌊x⌋ + 1 := Int.lt_floor_add_one x
  rcases le_or_lt (z : ℚ) (⌊x⌋ : ℚ) with hz | hz
  · rcases rint_cases x with ⟨he, hb⟩ | ⟨he, hb⟩
    · rw [he]
      rw [abs_of_nonneg (by linarith), abs_of_nonneg (by linarith)]
      linarith
    · rw [he]
      push_cast
      rw [abs_of_nonpos (by linarith), abs_of_nonneg (by linarith)]
      linarith
  · have hz1 : (⌊x⌋ : ℚ) + 1 ≤ (z : ℚ) := by
      have hlt : ⌊x⌋ < z := by exact_mod_cast hz
      exact_mod_cast Int.add_one_le_of_lt hlt
    rcases rint_cases x with ⟨he, hb⟩ | ⟨he, hb⟩
    · rw [he]
      rw [abs_of_nonneg (by linarith), abs_of_nonpos (by linarith)]
      linarith
    · rw [he]
      push_cast
      rw [abs_of_nonpos (by linarith), abs_of_nonpos (by linarith)]
      linarith

theorem mem_openCandList_iff (t : ℚ) :
    ∀ (n : List ℚ) (m : List ℤ),
      m ∈ openCandList t n ↔ List.Forall₂ (openDotRel t) n m := by
  intro n
  induction n with
  | nil =>
    intro m
    simp [openCandList, List.forall₂_nil_left_iff]
  | cons x xs ih =>
    intro m
    simp only [openCandList]
    by_cases hb : branchedOpen t x
    · simp only [hb, if_true, List.mem_append, List.mem_map]
      constructor
      · rintro (⟨r, hr, rfl⟩ | ⟨r, hr, rfl⟩)
        · exact List.Forall₂.cons (by simp [openDotRel, hb]) ((ih r).mp hr)
        · exact List.Forall₂.cons (by simp [openDotRel, hb]) ((ih r).mp hr)
      · intro h
        cases h with
        | cons hrel hrest =>
          simp only [openDotRel, hb, if_true] at hrel
          rcases hrel with rfl | rfl
          · left; exact ⟨_, (ih _).mpr hrest, rfl⟩
          · right; exact ⟨_, (ih _).mpr hrest, rfl⟩
    · simp only [hb, if_false, List.mem_map]
      constructor
      · rintro ⟨r, hr, rfl⟩
        exact List.Forall₂.cons (by simp [openDotRel, hb]) ((ih r).mp hr)
      · intro h
        cases h with
        | cons hrel hrest =>
          simp only [openDotRel, hb, if_false] at hrel
          subst hrel
          exact ⟨_, (ih _).mpr hrest, rfl⟩

theorem openCandList_length (t : ℚ) :
    ∀ n : List ℚ,
      (openCandList t n).length = 2 ^ (n.countP (fun x => decide (branchedOpen t x))) := by
  intro n
  induction n with
  | nil => simp [openCandList]
  | cons x xs ih =>
    simp only [openCandList]
    by_cases hb : branchedOpen t x
    · simp [hb, List.countP_cons, ih]
      ring
    · simp [hb, List.countP_cons, ih]

theorem openCandList_ne_nil (t : ℚ) (n : List ℚ) : openCandList t n ≠ [] := by
  intro h
  have := openCandList_length t n
  rw [h] at this
  simp at this
  exact absurd this.symm (by positivity)

theorem argminFirst_first_occurrence {α β : Type} [LinearOrder β] (f : α → β) :
    ∀ (l : List α) (m : α), argminFirst f l = some m →
      ∃ l1 l2, l = l1 ++ m :: l2 ∧ ∀ y ∈ l1, f m < f y := by
  intro l
  induction l with
  | nil => intro m h; simp [argminFirst] at h
  | cons x xs ih =>
    intro m h
    simp only [argminFirst] at h
    cases hx : argminFirst f xs with
    | none =>
      rw [hx] at h
      simp at h
      subst h
      exact ⟨[], xs, rfl, by simp⟩
    | some z =>
      rw [hx] at h
      by_cases hle : f x ≤ f z
      · simp [hle] at h
        subst h
        exact ⟨[], xs, rfl, by simp⟩
      · simp [hle] at h
        subst h
        obtain ⟨l1, l2, heq, hlt⟩ := ih z hx
        refine ⟨x :: l1, l2, by simp [heq], ?_⟩
        intro y hy
        rcases List.mem_cons.mp hy with rfl | hy2
        · exact lt_of_not_le hle
        · exact hlt y hy2

theorem openDotRel_mono {t1 t2 : ℚ} (h : t1 ≤ t2) (x : ℚ) (z : ℤ) :
    openDotRel t1 x z → openDotRel t2 x z := by
  intro hz
  unfold openDotRel branchedOpen at hz ⊢
  by_cases h1 : |x - ⌊x⌋ - 1/2| < t1 / 2
  · have h2 : |x - ⌊x⌋ - 1/2| < t2 / 2 := lt_of_lt_of_le h1 (by linarith)
    simp only [h1, if_true] at hz
    simp only [h2, if_true]
    exact hz
  · simp only [h1, if_false] at hz
    subst hz
    by_cases h2 : |x - ⌊x⌋ - 1/2| < t2 / 2
    · simp only [h2, if_true]
      exact rint_eq_floor_or_ceil x
    · simp only [h2, if_false]

theorem openCandList_mono {t1 t2 : ℚ} (h : t1 ≤ t2) (n : List ℚ) (m : List ℤ) :
    m ∈ openCandList t1 n → m ∈ openCandList t2 n := by
  intro hm
  rw [mem_openCandList_iff] at hm ⊢
  exact hm.imp (fun a b hab => openDotRel_mono h a b hab)

theorem length_of_mem_openCandList {t : ℚ} {n : List ℚ} {m : List ℤ}
    (hm : m ∈ openCandList t n) : m.length = n.length :=
  (((mem_openCandList_iff t n m).mp hm).length_eq).symm

theorem nonneg_of_mem_openCandList {t : ℚ} {n : List ℚ} {m : List ℤ}
    (hn : ∀ x ∈ n, 0 ≤ x) (hm : m ∈ openCandList t n) : ∀ z ∈ m, 0 ≤ z := by
  rw [mem_openCandList_iff] at hm
  induction hm with
  | nil => simp
  | @cons x z xs zs hrel _ ih =>
    intro w hw
    have hx : (0 : ℚ) ≤ x := hn x (by simp)
    rcases List.mem_cons.mp hw with rfl | hw2
    · have hfl : 0 ≤ ⌊x⌋ := Int.floor_nonneg.mpr hx
      have hcl : 0 ≤ ⌈x⌉ := le_trans hfl (Int.floor_le_ceil x)
      unfold openDotRel at hrel
      by_cases hb : branchedOpen t x
      · simp only [hb, if_true] at hrel
        rcases hrel with rfl | rfl
        · exact hfl
        · exact hcl
      · simp only [hb, if_false] at hrel
        subst hrel
        rcases rint_eq_floor_or_ceil x with he | he <;> rw [he]
        · exact hfl
        · exact hcl
    · exact ih (fun y hy => hn y (by simp [hy])) w hw2

theorem mem_binaryLists :
    ∀ (k : ℕ) (b : List ℤ),
      b ∈ binaryLists k ↔ b.length = k ∧ ∀ z ∈ b, z = 0 ∨ z = 1 := by
  intro k
  induction k with
  | zero =>
    intro b
    simp [binaryLists, List.length_eq_zero]
    rintro rfl
    simp
  | succ j ih =>
    intro b
    simp only [binaryLists, List.mem_append, List.mem_map]
    constructor
    · rintro (⟨r, hr, rfl⟩ | ⟨r, hr, rfl⟩)
      · obtain ⟨hl, hz⟩ := (ih r).mp hr
        refine ⟨by simp [hl], ?_⟩
        intro z hzr
        rcases List.mem_cons.mp hzr with rfl | hz2
        · left; rfl
        · exact hz z hz2
      · obtain ⟨hl, hz⟩ := (ih r).mp hr
        refine ⟨by simp [hl], ?_⟩
        intro z hzr
        rcases List.mem_cons.mp hzr with rfl | hz2
        · right; rfl
        · exact hz z hz2
    · rintro ⟨hl, hz⟩
      cases b with
      | nil => simp at hl
      | cons z r =>
        have hr : r ∈ binaryLists j :=
          (ih r).mpr ⟨by simpa using hl, fun w hw => hz w (by simp [hw])⟩
        rcases hz z (by simp) with rfl | rfl
        · left; exact ⟨r, hr, rfl⟩
        · right; exact ⟨r, hr, rfl⟩

theorem sum_zipWith_add (a b : List ℤ) (h : a.length = b.length) :
    (List.zipWith (fun x y => x + y) a b).sum = a.sum + b.sum := by
  induction a generalizing b with
  | nil => cases b with
    | nil => simp
    | cons y ys => simp at h
  | cons x xs ih =>
    cases b with
    | nil => simp at h
    | cons y ys =>
      simp only [List.zipWith_cons_cons, List.sum_cons]
      rw [ih ys (by simpa using h)]
      ring

theorem forall₂_closed_of_binary :
    ∀ (n : List ℚ) (b : List ℤ), b.length = n.length → (∀ z ∈ b, z = 0 ∨ z = 1) →
      List.Forall₂ closedDotRel n
        (List.zipWith (fun bi fi => bi + fi) b (n.map (fun x => ⌊x⌋))) := by
  intro n
  induction n with
  | nil =>
    intro b hl _
    simp [List.length_eq_zero] at hl
    subst hl
    simp
  | cons x xs ih =>
    intro b hl hz
    cases b with
    | nil => simp at hl
    | cons z r =>
      simp only [List.map_cons, List.zipWith_cons_cons]
      refine List.Forall₂.cons ?_ (ih r (by simpa using hl) (fun w hw => hz w (by simp [hw])))
      rcases hz z (by simp) with rfl | rfl
      · left; ring
      · right; ring

theorem binary_of_forall₂_closed :
    ∀ {n : List ℚ} {m : List ℤ}, List.Forall₂ closedDotRel n m →
      ∃ b : List ℤ, b.length = n.length ∧ (∀ z ∈ b, z = 0 ∨ z = 1) ∧
        m = List.zipWith (fun bi fi => bi + fi) b (n.map (fun x => ⌊x⌋)) ∧
        b.sum = m.sum - (n.map (fun x => ⌊x⌋)).sum := by
  intro n m h
  induction h with
  | nil => exact ⟨[], by simp, by simp, by simp, by simp⟩
  | @cons x z xs zs hrel _ ih =>
    obtain ⟨b, hbl, hbz, hbm, hbs⟩ := ih
    refine ⟨(z - ⌊x⌋) :: b, by simp [hbl], ?_, ?_, ?_⟩
    · intro w hw
      rcases List.mem_cons.mp hw with rfl | hw2
      · rcases hrel with he | he
        · left; omega
        · right; omega
      · exact hbz w hw2
    · simp only [List.map_cons, List.zipWith_cons_cons]
      rw [← hbm]
      congr 1
      omega
    · simp only [List.sum_cons, List.map_cons]
      omega

theorem sum_map_floor_add_one :
    ∀ l : List ℚ,
      ((l.map (fun x => ⌊x⌋)).map (fun v => v + 1)).sum =
        (l.map (fun x => ⌊x⌋)).sum + l.length := by
  intro l
  induction l with
  | nil => simp
  | cons a as ih =>
    simp only [List.map_cons, List.sum_cons, List.length_cons, ih]
    push_cast
    ring

theorem sum_bounds_of_forall₂_closed :
    ∀ {n : List ℚ} {m : List ℤ}, List.Forall₂ closedDotRel n m →
      (n.map (fun x => ⌊x⌋)).sum ≤ m.sum ∧
        m.sum ≤ (n.map (fun x => ⌊x⌋)).sum + n.length := by
  intro n m h
  induction h with
  | nil => simp
  | @cons x z xs zs hrel _ ih =>
    simp only [List.map_cons, List.sum_cons, List.length_cons]
    rcases hrel with he | he <;> omega

theorem mem_closed_charge_configurations_iff (ncont : List ℚ) (c : ℤ) (m : List ℤ) :
    m ∈ closed_charge_configurations ncont c ↔
      List.Forall₂ closedDotRel ncont m ∧ m.sum = c := by
  unfold closed_charge_configurations
  by_cases h1 : (ncont.map (fun x => ⌊x⌋)).sum > c
  · simp only [h1, if_true, List.not_mem_nil, false_iff, not_and]
    intro hf hs
    have := (sum_bounds_of_forall₂_closed hf).1
    omega
  · by_cases h2 : ((ncont.map (fun x => ⌊x⌋)).map (fun v => v + 1)).sum < c
    · simp only [h1, if_false, h2, if_true, List.not_mem_nil, false_iff, not_and]
      intro hf hs
      have hb := (sum_bounds_of_forall₂_closed hf).2
      have hmap := sum_map_floor_add_one ncont
      omega
    · simp only [h1, if_false, h2, if_false, List.mem_map, List.mem_filter]
      constructor
      · rintro ⟨b, ⟨hbmem, hbsum⟩, rfl⟩
        obtain ⟨hbl, hbz⟩ := (mem_binaryLists _ b).mp hbmem
        have hsum := sum_zipWith_add b (ncont.map (fun x => ⌊x⌋))
          (by simp [hbl])
        constructor
        · exact forall₂_closed_of_binary ncont b hbl hbz
        · rw [hsum]
          have : b.sum = c - (ncont.map (fun x => ⌊x⌋)).sum := by
            simpa using hbsum
          omega
      · rintro ⟨hf, hs⟩
        obtain ⟨b, hbl, hbz, hbm, hbs⟩ := binary_of_forall₂_closed hf
        refine ⟨b, ⟨(mem_binaryLists _ b).mpr ⟨hbl, hbz⟩, ?_⟩, hbm.symm⟩
        simp only [decide_eq_true_eq]
        omega

/-! ## Lemmas about the batch layer -/

theorem mapOpt_eq_some_iff {α β : Type} (f : α → Option β) :
    ∀ (l : List α) (res : List β),
      mapOpt f l = some res ↔ List.Forall₂ (fun a b => f a = some b) l res := by
  intro l
  induction l with
  | nil =>
    intro res
    simp only [mapOpt]
    constructor
    · rintro h
      have : res = [] := by simpa using h.symm
      subst this
      exact List.Forall₂.nil
    · intro h
      cases h
      rfl
  | cons x xs ih =>
    intro res
    simp only [mapOpt]
    cases hx : f x with
    | none =>
      simp only []
      constructor
      · intro h; cases h
      · intro h
        cases h with
        | cons hrel _ => rw [hx] at hrel; cases hrel
    | some y =>
      cases hxs : mapOpt f xs with
      | none =>
        simp only []
        constructor
        · intro h; cases h
        · intro h
          cases h with
          | cons _ hrest =>
            have := (ih _).mpr hrest
            rw [hxs] at this
            cases this
      | some ys =>
        simp only []
        constructor
        · intro h
          have hres : res = y :: ys := by simpa using h.symm
          subst hres
          exact List.Forall₂.cons hx ((ih ys).mp hxs)
        · intro h
          cases h with
          | cons hrel hrest =>
            rw [hx] at hrel
            cases hrel
            have h2 := (ih _).mpr hrest
            rw [hxs] at h2
            cases h2
            rfl

theorem chunks_spec {α : Type} (m : ℕ) (hm : 0 < m) :
    ∀ (k : ℕ) (data : List α), data.length ≤ k → m ∣ data.length →
      (∀ r ∈ chunks m data, r.length = m) ∧
        (chunks m data).length * m = data.length := by
  intro k
  induction k with
  | zero =>
    intro data hle _
    have : data = [] := List.length_eq_zero.mp (Nat.le_zero.mp hle)
    subst this
    simp [chunks]
  | succ j ih =>
    intro data hle hdvd
    cases data with
    | nil => simp [chunks]
    | cons x xs =>
      have hlen : (x :: xs).length = xs.length + 1 := by simp
      have hge : m ≤ xs.length + 1 := by
        rcases hdvd with ⟨q, hq⟩
        rw [hlen] at hq
        rcases Nat.eq_zero_or_pos q with rfl | hqpos
        · omega
        · calc m = m * 1 := (Nat.mul_one m).symm
            _ ≤ m * q := Nat.mul_le_mul_left m hqpos
            _ = xs.length + 1 := hq.symm
      have htake : (x :: xs.take (m - 1)).length = m := by
        simp [List.length_take]
        omega
      have hdrop : (xs.drop (m - 1)).length = xs.length + 1 - m := by
        simp [List.length_drop]
        omega
      have hdvd2 : m ∣ (xs.drop (m - 1)).length := by
        rw [hdrop]
        rcases hdvd with ⟨q, hq⟩
        rw [hlen] at hq
        rcases q with _ | q2
        · simp at hq
        · exact ⟨q2, by rw [hq, Nat.mul_succ]; omega⟩
      have hle2 : (xs.drop (m - 1)).length ≤ j := by
        rw [hdrop]
        simp at hle
        omega
      obtain ⟨ihrows, ihlen⟩ := ih (xs.drop (m - 1)) hle2 hdvd2
      constructor
      · intro r hr
        rw [chunks] at hr
        rcases List.mem_cons.mp hr with rfl | hr2
        · exact htake
        · exact ihrows r hr2
      · rw [chunks]
        simp only [List.length_cons]
        rw [Nat.succ_mul, ihlen, hdrop]
        omega

theorem flatten_length_of_rows {α : Type} (d : ℕ) :
    ∀ rows : List (List α), (∀ r ∈ rows, r.length = d) →
      rows.flatten.length = rows.length * d := by
  intro rows
  induction rows with
  | nil => simp
  | cons r rs ih =>
    intro h
    simp only [List.flatten_cons, List.length_append, List.length_cons]
    rw [h r (by simp), ih (fun s hs => h s (by simp [hs]))]
    ring

theorem forall₂_length {α β : Type} {R : α → β → Prop} {l1 : List α} {l2 : List β}
    (h : List.Forall₂ R l1 l2) : l1.length = l2.length := h.length_eq

/-- The open python single-point solve always returns, its result lies in the
open candidate list of the clipped continuous solution, and it is optimal
there. -/
theorem _ground_state_open_0d_spec (qp : List ℚ → List ℚ)
    (cgd cddInv : List (List ℚ)) (t : ℚ) (vg : List ℚ) :
    ∃ m, _ground_state_open_0d qp cgd cddInv t vg = some m ∧
      m ∈ openCandList t
        ((qp ((matVec cddInv (matVec cgd vg)).map (fun a => -a))).map
          (fun a => max 0 a)) := by
  unfold _ground_state_open_0d compute_argmin_open
  set ncont := (qp ((matVec cddInv (matVec cgd vg)).map (fun a => -a))).map
    (fun a => max 0 a) with hn
  cases hres : argminFirst (freeEnergy cddInv ncont) (openCandList t ncont) with
  | none =>
    exfalso
    exact openCandList_ne_nil t ncont ((argminFirst_eq_none _ _).mp hres)
  | some m =>
    exact ⟨m, rfl, argminFirst_mem _ _ _ hres⟩

/-- The closed python single-point solve, when it returns, returns a
candidate of the exact-total generator: its total is exactly n_charge. -/
theorem _ground_state_closed_0d_sum (qp : List ℚ → List ℚ) (nCharge : ℤ)
    (cgd cddInv : List (List ℚ)) (t : ℚ) (vg : List ℚ) (m : List ℤ)
    (h : _ground_state_closed_0d qp nCharge cgd cddInv t vg = some m) :
    m.sum = nCharge ∧
      m.length = (qp ((matVec cddInv (matVec cgd vg)).map (fun a => -a))).length := by
  unfold _ground_state_closed_0d compute_argmin_closed at h
  have hmem := argminFirst_mem _ _ _ h
  rw [mem_closed_charge_configurations_iff] at hmem
  refine ⟨hmem.2, ?_⟩
  have := hmem.1.length_eq
  simpa using this.symm

theorem replicate_zero_mem_openConfigs :
    ∀ (d nMax : ℕ), List.replicate d (0 : ℤ) ∈ openConfigs d nMax := by
  intro d nMax
  induction d with
  | zero => simp [openConfigs]
  | succ e ih =>
    simp only [openConfigs, List.mem_flatMap, List.replicate_succ]
    refine ⟨0, ?_, ?_⟩
    · simp
    · exact List.mem_map.mpr ⟨List.replicate e 0, ih, rfl⟩

theorem feasible_mem_openConfigs (d nMax : ℕ) (hd : 1 ≤ d) :
    ((nMax : ℤ) :: List.replicate (d - 1) (0 : ℤ)) ∈ openConfigs d nMax := by
  cases d with
  | zero => omega
  | succ e =>
    simp only [openConfigs, List.mem_flatMap, Nat.succ_sub_one]
    refine ⟨(nMax : ℤ), ?_, ?_⟩
    · exact List.mem_map.mpr ⟨nMax, List.mem_range.mpr (Nat.lt_succ_self nMax), rfl⟩
    · exact List.mem_map.mpr ⟨List.replicate e 0, replicate_zero_mem_openConfigs e nMax, rfl⟩

theorem sum_zipWith_addQ (a b : List ℚ) (h : a.length = b.length) :
    (List.zipWith (fun x y => x + y) a b).sum = a.sum + b.sum := by
  induction a generalizing b with
  | nil => cases b with
    | nil => simp
    | cons y ys => simp at h
  | cons x xs ih =>
    cases b with
    | nil => simp at h
    | cons y ys =>
      simp only [List.zipWith_cons_cons, List.sum_cons]
      rw [ih ys (by simpa using h)]
      ring

theorem addRows_sum (a b : List ℚ) (h : a.length = b.length) :
    (addRows a b).sum = a.sum + b.sum := sum_zipWith_addQ a b h

theorem addRows_length (a b : List ℚ) : (addRows a b).length = min a.length b.length := by
  simp [addRows]

theorem foldl_addRows_spec (d : ℕ) :
    ∀ (L : List (List ℚ)) (acc : List ℚ), (∀ r ∈ L, r.length = d) →
      acc.length = d →
      (L.foldl addRows acc).sum = acc.sum + (L.map List.sum).sum ∧
        (L.foldl addRows acc).length = d := by
  intro L
  induction L with
  | nil => intro acc _ hacc; simp [hacc]
  | cons r rs ih =>
    intro acc hrows hacc
    have hr : r.length = d := hrows r (by simp)
    have hlen : (addRows acc r).length = d := by
      rw [addRows_length, hacc, hr]
      simp
    simp only [List.foldl_cons]
    obtain ⟨hsum, hfin⟩ := ih (addRows acc r) (fun s hs => hrows s (by simp [hs])) hlen
    refine ⟨?_, hfin⟩
    rw [hsum, addRows_sum acc r (by rw [hacc, hr])]
    simp only [List.map_cons, List.sum_cons]
    ring

theorem scaleRow_sum (w : ℚ) (row : List ℤ) :
    (scaleRow w row).sum = w * ((row.sum : ℤ) : ℚ) := by
  induction row with
  | nil => simp [scaleRow]
  | cons z r ih =>
    simp only [scaleRow, List.map_cons, List.sum_cons, List.sum_cons] at ih ⊢
    rw [ih]
    push_cast
    ring

theorem mem_zipWith_scaleRow :
    ∀ (w : List ℚ) (rows : List (List ℤ)) (p : List ℚ),
      p ∈ List.zipWith scaleRow w rows → ∃ wi row, row ∈ rows ∧ p = scaleRow wi row := by
  intro w
  induction w with
  | nil => intro rows p hp; simp at hp
  | cons wi ws ih =>
    intro rows p hp
    cases rows with
    | nil => simp at hp
    | cons row rest =>
      simp only [List.zipWith_cons_cons, List.mem_cons] at hp
      rcases hp with rfl | hp2
      · exact ⟨wi, row, by simp, rfl⟩
      · obtain ⟨wj, rj, hrj, hpe⟩ := ih rest p hp2
        exact ⟨wj, rj, by simp [hrj], hpe⟩

theorem zipWith_scaleRow_sums (c : ℤ) :
    ∀ {w : List ℚ} {rows : List (List ℤ)},
      List.Forall₂ (fun wi (row : List ℤ) => wi ≠ 0 → row.sum = c) w rows →
      ((List.zipWith scaleRow w rows).map List.sum).sum = w.sum * (c : ℚ) := by
  intro w rows h
  induction h with
  | nil => simp
  | @cons wi row ws rest hrel _ ih =>
    simp only [List.zipWith_cons_cons, List.map_cons, List.sum_cons]
    rw [ih, scaleRow_sum]
    by_cases hw : wi = 0
    · subst hw; ring
    · rw [hrel hw]; ring

/-- The sum of the T > 0 weighted average: with normalized weights supported
on candidates of total c, the averaged occupation vector sums to exactly c. -/
theorem weightedAvg_sum (d : ℕ) (c : ℤ) (w : List ℚ) (rows : List (List ℤ))
    (hrows : ∀ r ∈ rows, r.length = d)
    (hsupp : List.Forall₂ (fun wi (row : List ℤ) => wi ≠ 0 → row.sum = c) w rows)
    (hnorm : w.sum = 1) :
    (weightedAvg w rows d).sum = (c : ℚ) := by
  unfold weightedAvg
  have hlens : ∀ p ∈ List.zipWith scaleRow w rows, p.length = d := by
    intro p hp
    obtain ⟨wi, row, hrow, rfl⟩ := mem_zipWith_scaleRow w rows p hp
    simp [scaleRow, hrows row hrow]
  obtain ⟨hsum, _⟩ := foldl_addRows_spec d (List.zipWith scaleRow w rows)
    (List.replicate d 0) hlens (by simp)
  rw [hsum, zipWith_scaleRow_sums c hsupp, hnorm]
  simp

/-! ## Frame lemmas for the state-threaded batch solves -/

theorem ground_state_open_python_st_frame (qp : List ℚ → List ℚ) (t : ℚ)
    (vg : List (List ℚ)) (s : SolverState) :
    (ground_state_open_python_st qp t vg s).2.cdd = s.cdd ∧
      (ground_state_open_python_st qp t vg s).2.cddInv = s.cddInv ∧
      (ground_state_open_python_st qp t vg s).2.cgd = s.cgd := by
  unfold ground_state_open_python_st
  have H : ∀ (l : List (List ℚ)) (acc : List (Option (List ℤ)) × SolverState),
      (l.foldl
          (fun acc v =>
            let step := ground_state_open_0d_st qp t v acc.2
            (acc.1 ++ [step.1], step.2))
          acc).2.cdd = acc.2.cdd ∧
        (l.foldl
            (fun acc v =>
              let step := ground_state_open_0d_st qp t v acc.2
              (acc.1 ++ [step.1], step.2))
            acc).2.cddInv = acc.2.cddInv ∧
        (l.foldl
            (fun acc v =>
              let step := ground_state_open_0d_st qp t v acc.2
              (acc.1 ++ [step.1], step.2))
            acc).2.cgd = acc.2.cgd := by
    intro l
    induction l with
    | nil => intro acc; exact ⟨rfl, rfl, rfl⟩
    | cons v vs ih =>
      intro acc
      simp only [List.foldl_cons]
      exact ih _
  exact H vg ([], s)

theorem ground_state_closed_python_st_frame (qp : List ℚ → List ℚ) (nCharge : ℤ)
    (t : ℚ) (vg : List (List ℚ)) (s : SolverState) :
    (ground_state_closed_python_st qp nCharge t vg s).2.cdd = s.cdd ∧
      (ground_state_closed_python_st qp nCharge t vg s).2.cddInv = s.cddInv ∧
      (ground_state_closed_python_st qp nCharge t vg s).2.cgd = s.cgd := by
  unfold ground_state_closed_python_st
  have H : ∀ (l : List (List ℚ)) (acc : List (Option (List ℤ)) × SolverState),
      (l.foldl
          (fun acc v =>
            let step := ground_state_closed_0d_st qp nCharge t v acc.2
            (acc.1 ++ [step.1], step.2))
          acc).2.cdd = acc.2.cdd ∧
        (l.foldl
            (fun acc v =>
              let step := ground_state_closed_0d_st qp nCharge t v acc.2
              (acc.1 ++ [step.1], step.2))
            acc).2.cddInv = acc.2.cddInv ∧
        (l.foldl
            (fun acc v =>
              let step := ground_state_closed_0d_st qp nCharge t v acc.2
              (acc.1 ++ [step.1], step.2))
            acc).2.cgd = acc.2.cgd := by
    intro l
    induction l with
    | nil => intro acc; exact ⟨rfl, rfl, rfl⟩
    | cons v vs ih =>
      intro acc
      simp only [List.foldl_cons]
      exact ih _
  exact H vg ([], s)

theorem forall₂_mem_right {α β : Type} {R : α → β → Prop} :
    ∀ {l1 : List α} {l2 : List β}, List.Forall₂ R l1 l2 → ∀ b ∈ l2, ∃ a ∈ l1, R a b := by
  intro l1 l2 h
  induction h with
  | nil => simp
  | @cons x y xs ys hrel _ ih =>
    intro b hb
    rcases List.mem_cons.mp hb with rfl | hb2
    · exact ⟨x, by simp, hrel⟩
    · obtain ⟨a, ha, har⟩ := ih b hb2
      exact ⟨a, by simp [ha], har⟩

theorem mapOpt_some_of_forall {α β : Type} (f : α → Option β) :
    ∀ l : List α, (∀ a ∈ l, ∃ b, f a = some b) → ∃ res, mapOpt f l = some res := by
  intro l
  induction l with
  | nil => intro _; exact ⟨[], rfl⟩
  | cons x xs ih =>
    intro h
    obtain ⟨y, hy⟩ := h x (by simp)
    obtain ⟨ys, hys⟩ := ih (fun a ha => h a (by simp [ha]))
    exact ⟨y :: ys, by simp [mapOpt, hy, hys]⟩

theorem _ground_state_open_0d_mem {qp : List ℚ → List ℚ}
    {cgd cddInv : List (List ℚ)} {t : ℚ} {vg : List ℚ} {m : List ℤ}
    (h : _ground_state_open_0d qp cgd cddInv t vg = some m) :
    m ∈ openCandList t
      ((qp ((matVec cddInv (matVec cgd vg)).map (fun a => -a))).map
        (fun a => max 0 a)) := by
  unfold _ground_state_open_0d compute_argmin_open at h
  exact argminFirst_mem _ _ _ h

theorem getLast?_shape_struct {shape : List ℕ} {g : ℕ}
    (hl : shape.getLast? = some g) :
    ∃ L, shape = L ++ [g] ∧ shape.dropLast = L ∧ shape.prod = L.prod * g := by
  rcases List.eq_nil_or_concat shape with rfl | ⟨L, b, rfl⟩
  · simp at hl
  · rw [List.concat_eq_append] at hl ⊢
    rw [List.getLast?_concat] at hl
    have hb : b = g := by simpa using hl
    subst hb
    exact ⟨L, rfl, List.dropLast_concat, by simp⟩

/-! ## Claim theorems -/

/-- C1: closed-mode total-charge invariant.  (i) every batch the python closed
solve returns consists of rows summing exactly to n_charge; (ii) for any
backend, if the flattened per-point results fail the isclose total-charge
assertion the batch entry point aborts with the assertion error instead of
returning; (iii) the jax brute-force closed core at T = 0 only ever returns a
candidate of total n_charge (the mask sends all others to +∞); (iv) the
T > 0 soft branch, a weighted average under normalized weights supported on
candidates of total n_charge, sums exactly to n_charge. -/
theorem C1_closed_sum_invariant :
    (∀ (qp : List ℚ → List ℚ) (c : ℤ) (cgd cddInv : List (List ℚ)) (t : ℚ)
        (vg : List (List ℚ)) (N : List (List ℤ)),
        ground_state_closed_python qp c cgd cddInv t vg = some N →
        ∀ row ∈ N, row.sum = c) ∧
    (∀ (solver : List ℚ → Option (List ℤ)) (c : ℤ) (nGate nDot : ℕ)
        (shape : List ℕ) (data : List ℚ) (results : List (List ℤ)),
        shape.getLast? = some nGate →
        mapOpt solver (chunks nGate data) = some results →
        assertClosedHolds c results = false →
        _ground_state_closed solver c nGate nDot shape data =
          Except.error ("The number of charges is not correct something went wrong")) ∧
    (∀ (cddInv cgd : List (List ℚ)) (c : ℕ) (nDot : ℕ) (vg : List ℚ)
        (m : List ℤ),
        1 ≤ nDot →
        ground_state_closed_jax_brute_force_0d cddInv cgd (c : ℤ) nDot c vg =
          some m →
        m.sum = (c : ℤ)) ∧
    (∀ (d : ℕ) (c : ℤ) (w : List ℚ) (rows : List (List ℤ)),
        (∀ r ∈ rows, r.length = d) →
        List.Forall₂ (fun wi (row : List ℤ) => wi ≠ 0 → row.sum = c) w rows →
        w.sum = 1 →
        (weightedAvg w rows d).sum = (c : ℚ)) := by
  refine ⟨?_, ?_, ?_, ?_⟩
  · intro qp c cgd cddInv t vg N h row hrow
    unfold ground_state_closed_python at h
    rw [mapOpt_eq_some_iff] at h
    obtain ⟨v, _, hv⟩ := forall₂_mem_right h row hrow
    exact (_ground_state_closed_0d_sum qp c cgd cddInv t v row hv).1
  · intro solver c nGate nDot shape data results hl hmap hassert
    unfold _ground_state_closed
    rw [hl]
    simp [hmap, hassert]
  · intro cddInv cgd c nDot vg m hd hm
    unfold ground_state_closed_jax_brute_force_0d at hm
    have hle := argminFirst_le _ _ _ hm
      ((c : ℤ) :: List.replicate (nDot - 1) 0) (feasible_mem_openConfigs nDot c hd)
    by_contra hne
    have htop : jaxMaskedF cddInv (matVec cgd vg) (c : ℤ) m = ⊤ := by
      simp [jaxMaskedF, hne]
    have hfeas : ((c : ℤ) :: List.replicate (nDot - 1) 0).sum = (c : ℤ) := by simp
    rw [htop, jaxMaskedF, if_pos hfeas] at hle
    exact WithTop.not_top_le_coe _ hle
  · intro d c w rows hrows hsupp hnorm
    exact weightedAvg_sum d c w rows hrows hsupp hnorm

/-- Witness for C1: (i) a one-dot closed batch returning [[1]] at n_charge 1;
(ii) a backend emitting total 5 against n_charge 1 aborts with the assertion
message; (iii) the jax brute-force core on one dot returns total 1;
(iv) the weighted average at weight [1] of row [1] sums to 1. -/
theorem C1_witness :
    (∀ row ∈ [([1] : List ℤ)], row.sum = (1 : ℤ)) ∧
    _ground_state_closed (fun _ => some [5]) 1 1 1 [1] [0] =
      Except.error ("The number of charges is not correct something went wrong") ∧
    ([1] : List ℤ).sum = ((1 : ℕ) : ℤ) ∧
    (weightedAvg [1] [[1]] 1).sum = ((1 : ℤ) : ℚ) := by
  refine ⟨?_, ?_, ?_, ?_⟩
  · exact C1_closed_sum_invariant.1 (fun _ => [(3 : ℚ)/10]) 1 [[1]] [[1]] 1
      [[0]] [[1]] (by with_unfolding_all rfl)
  · exact C1_closed_sum_invariant.2.1 (fun _ => some [5]) 1 1 1 [1] [0] [[5]]
      rfl (by with_unfolding_all rfl) (by with_unfolding_all rfl)
  · exact C1_closed_sum_invariant.2.2.1 [[1]] [[1]] 1 1 [0] [1] (by omega)
      (by with_unfolding_all rfl)
  · exact C1_closed_sum_invariant.2.2.2 1 1 [1] [[1]] (by simp)
      (List.Forall₂.cons (fun _ => rfl) List.Forall₂.nil) (by simp)

/-- C3: in the open-mode integer corrector a dot is branched exactly when
|remainder − 0.5| < threshold/2 (remainder = n_continuous − floor); every
non-branched dot is set to np.rint, a nearest integer; the candidate list is
exactly the 2^k floor/ceil combinations over the k branched dots; and the
returned vector is the candidate of minimum free energy, ties broken by the
first occurrence in generation order. -/
theorem C3_compute_argmin_open_spec (n : List ℚ) (t : ℚ) (cddInv : List (List ℚ)) :
    (∀ m : List ℤ, m ∈ openCandList t n ↔ List.Forall₂ (openDotRel t) n m) ∧
    (openCandList t n).length = 2 ^ n.countP (fun x => decide (branchedOpen t x)) ∧
    (∀ x ∈ n, ¬branchedOpen t x → ∀ z : ℤ, |x - (rint x : ℚ)| ≤ |x - (z : ℚ)|) ∧
    ∀ m : List ℤ, compute_argmin_open n t cddInv = some m →
      m ∈ openCandList t n ∧
      (∀ y ∈ openCandList t n, freeEnergy cddInv n m ≤ freeEnergy cddInv n y) ∧
      ∃ l1 l2, openCandList t n = l1 ++ m :: l2 ∧
        ∀ y ∈ l1, freeEnergy cddInv n m < freeEnergy cddInv n y := by
  refine ⟨mem_openCandList_iff t n, openCandList_length t n, ?_, ?_⟩
  · intro x _ _ z
    exact rint_nearest x z
  · intro m hm
    exact ⟨argminFirst_mem _ _ _ hm, argminFirst_le _ _ _ hm,
      argminFirst_first_occurrence _ _ _ hm⟩

/-- Witness for C3 at n = [1/2], threshold 1, cddInv = [[1]]: the solve
returns [0] and the theorem yields its optimality and first-occurrence
position. -/
theorem C3_witness :
    compute_argmin_open [(1:ℚ)/2] 1 [[1]] = some [0] ∧
    ([0] ∈ openCandList 1 [(1:ℚ)/2] ∧
      (∀ y ∈ openCandList 1 [(1:ℚ)/2],
        freeEnergy [[1]] [(1:ℚ)/2] [0] ≤ freeEnergy [[1]] [(1:ℚ)/2] y) ∧
      ∃ l1 l2, openCandList 1 [(1:ℚ)/2] = l1 ++ [0] :: l2 ∧
        ∀ y ∈ l1, freeEnergy [[1]] [(1:ℚ)/2] [0] < freeEnergy [[1]] [(1:ℚ)/2] y) :=
  have h : compute_argmin_open [(1:ℚ)/2] 1 [[1]] = some [0] := by
    with_unfolding_all rfl
  ⟨h, (C3_compute_argmin_open_spec [(1:ℚ)/2] 1 [[1]]).2.2.2 [0] h⟩

/-- C4: the closed-mode configuration generator returns exactly the integer
vectors with i-th component ⌊n_i⌋ or ⌊n_i⌋ + 1 summing exactly to n_charge,
and returns an empty sequence (not an error) whenever the achievable
floor/ceil sum range does not bracket n_charge. -/
theorem C4_closed_charge_configurations_spec (n : List ℚ) (c : ℤ) :
    (∀ m : List ℤ, m ∈ closed_charge_configurations n c ↔
      List.Forall₂ closedDotRel n m ∧ m.sum = c) ∧
    ((c < (n.map (fun x => ⌊x⌋)).sum ∨
        ((n.map (fun x => ⌊x⌋)).map (fun v => v + 1)).sum < c) →
      closed_charge_configurations n c = []) := by
  refine ⟨mem_closed_charge_configurations_iff n c, ?_⟩
  intro h
  unfold closed_charge_configurations
  simp only []
  split_ifs with h1 h2
  · rfl
  · rfl
  · exfalso
    rcases h with h | h
    · omega
    · omega

/-- Witness for C4: at n = [1/2, 3/2], n_charge = 2, membership of [0, 2] is
settled by the characterization; at n = [1/2], n_charge = 5 the bracket fails
and the generator returns the empty list. -/
theorem C4_witness :
    ([0, 2] ∈ closed_charge_configurations [(1:ℚ)/2, 3/2] 2 ↔
      List.Forall₂ closedDotRel [(1:ℚ)/2, 3/2] [0, 2] ∧ ([0, 2] : List ℤ).sum = 2) ∧
    closed_charge_configurations [(1:ℚ)/2] 5 = [] :=
  ⟨(C4_closed_charge_configurations_spec [(1:ℚ)/2, 3/2] 2).1 [0, 2],
    (C4_closed_charge_configurations_spec [(1:ℚ)/2] 5).2
      (Or.inr (of_decide_eq_true (by with_unfolding_all rfl)))⟩

/-- C5: threshold monotonicity of the open corrector — at a larger threshold
the candidate neighborhood only grows, so the free energy of the returned
vector is non-increasing in the threshold. -/
theorem C5_threshold_monotonicity (n : List ℚ) (cddInv : List (List ℚ))
    (t1 t2 : ℚ) (h12 : t1 ≤ t2) (m1 m2 : List ℤ)
    (h1 : compute_argmin_open n t1 cddInv = some m1)
    (h2 : compute_argmin_open n t2 cddInv = some m2) :
    freeEnergy cddInv n m2 ≤ freeEnergy cddInv n m1 := by
  have hm1 : m1 ∈ openCandList t1 n := argminFirst_mem _ _ _ h1
  have hm1t2 : m1 ∈ openCandList t2 n := openCandList_mono h12 n m1 hm1
  exact argminFirst_le _ _ _ h2 m1 hm1t2

/-- Witness for C5 at n = [1/2], cddInv = [[1]], thresholds 0 ≤ 1. -/
theorem C5_witness :
    (0 : ℚ) ≤ 1 ∧
    compute_argmin_open [(1:ℚ)/2] 0 [[1]] = some [0] ∧
    compute_argmin_open [(1:ℚ)/2] 1 [[1]] = some [0] ∧
    freeEnergy [[1]] [(1:ℚ)/2] [0] ≤ freeEnergy [[1]] [(1:ℚ)/2] [0] :=
  have ha : compute_argmin_open [(1:ℚ)/2] 0 [[1]] = some [0] := by
    with_unfolding_all rfl
  have hb : compute_argmin_open [(1:ℚ)/2] 1 [[1]] = some [0] := by
    with_unfolding_all rfl
  ⟨by norm_num, ha, hb,
    C5_threshold_monotonicity [(1:ℚ)/2] [[1]] 0 1 (by norm_num) [0] [0] ha hb⟩

/-- C6: when the exact-total generator yields no candidate the closed
corrector aborts (np.argmin of an empty array raises) instead of returning
any vector — and conversely it only aborts in that case. -/
theorem C6_closed_infeasible_aborts (n : List ℚ) (t : ℚ)
    (cddInv : List (List ℚ)) (c : ℤ) :
    compute_argmin_closed n t cddInv (some c) = none ↔
      closed_charge_configurations n c = [] := by
  unfold compute_argmin_closed
  exact argminFirst_eq_none _ _

/-- Witness for C6 at n = [1/2], n_charge = 5: the generator is empty and
the corrector aborts. -/
theorem C6_witness :
    compute_argmin_closed [(1:ℚ)/2] 1 [[1]] (some 5) = none :=
  (C6_closed_infeasible_aborts [(1:ℚ)/2] 1 [[1]] 5).mpr
    (by with_unfolding_all rfl)

/-- C2, evaluated at the failing input n_continuous = [1, 2, 3, 3/5] with
threshold 0 on a four-dot array: dot 3 has remainder distance 1/10 from 0.5,
strictly the smallest delta, yet the code branches dots 0, 1, 2 — the
argsort ranking is computed and then discarded (args is reassigned to
np.arange), so every candidate fixes dot 3 to np.rint(3/5) = 1 and the
returned vector is [1, 2, 3, 1] no matter the energies.  The claim instead
requires the branched dots to be the three with smallest delta,
3, 0, 1. -/
theorem C2_closed_branch_selection_bug :
    closedDelta [1, 2, 3, (3:ℚ)/5] = [1/2, 1/2, 1/2, 1/10] ∧
    closedThresholdIndex [1, 2, 3, (3:ℚ)/5] 0 4 = 3 ∧
    closedFloorCeilArgs [1, 2, 3, (3:ℚ)/5] 0 4 = [0, 1, 2] ∧
    (∀ m ∈ closedCandList 3 [1, 2, 3, (3:ℚ)/5], m = [1, 2, 3, 1]) ∧
    compute_argmin_closed [1, 2, 3, (3:ℚ)/5] 0
      [[1,0,0,0],[0,1,0,0],[0,0,1,0],[0,0,0,1]] none = some [1, 2, 3, 1] :=
  ⟨by with_unfolding_all rfl, by with_unfolding_all rfl,
    by with_unfolding_all rfl, of_decide_eq_true (by with_unfolding_all rfl),
    by with_unfolding_all rfl⟩

/-- C7 counterexample: the claim requires the shape-validation message to
state expected versus ACTUAL shape; two batches with different actual
trailing lengths (5 and 7, against n_gate = 3) produce the identical
message, so the message does not state the actual shape. -/
theorem C7_counterexample :
    _ground_state_open (fun _ => none) 3 1 [5] [0, 0, 0, 0, 0] =
      Except.error (errMsgVg 3) ∧
    _ground_state_open (fun _ => none) 3 1 [7] [0, 0, 0, 0, 0, 0, 0] =
      Except.error (errMsgVg 3) ∧
    (5 : ℕ) ≠ 7 :=
  ⟨by rfl, by rfl, by omega⟩

/-- C7 amended: whenever the trailing axis differs from the gate count, both
entry points raise the shape-validation error before any numeric work (the
result does not depend on the backend solver at all) and the message states
the expected shape (..., n_gate) — but not the actual one. -/
theorem C7_shape_validation (solver : List ℚ → Option (List ℤ)) (c : ℤ)
    (nGate nDot trailing : ℕ) (shape : List ℕ) (data : List ℚ)
    (hl : shape.getLast? = some trailing) (hne : trailing ≠ nGate) :
    _ground_state_open solver nGate nDot shape data =
      Except.error (errMsgVg nGate) ∧
    _ground_state_closed solver c nGate nDot shape data =
      Except.error (errMsgVg nGate) := by
  unfold _ground_state_open _ground_state_closed
  rw [hl]
  simp [hne]

/-- Witness for C7 at shape [5], n_gate = 3, a backend that always fails:
the validation error fires for both entry points. -/
theorem C7_witness :
    List.getLast? [5] = some 5 ∧ (5 : ℕ) ≠ 3 ∧
    _ground_state_open (fun _ => none) 3 2 [5] [0, 0, 0, 0, 0] =
      Except.error (errMsgVg 3) ∧
    _ground_state_closed (fun _ => none) 1 3 2 [5] [0, 0, 0, 0, 0] =
      Except.error (errMsgVg 3) :=
  have h := C7_shape_validation (fun _ => none) 1 3 2 5 [5] [0, 0, 0, 0, 0]
    rfl (by omega)
  ⟨rfl, by omega, h.1, h.2⟩

/-- C8 counterexample: the claim says dispatch is case-insensitive, so "R"
(a capitalization of the accepted "r") would have to select the rust
backend; the match accepts "r" but rejects "R". -/
theorem C8_counterexample :
    matchCore ("r") = some Core.rust ∧ matchCore ("R") = none :=
  ⟨rfl, rfl⟩

/-- C8 amended: dispatch accepts exactly the literal spellings of the four
match cases (case-sensitively), and any other identifier falls to the
catch-all ValueError whose message names rust, jax and python (brute_force
is not named). -/
theorem C8_dispatch_spellings (s : String) :
    (matchCore s = some Core.rust ↔
      s = "rust" ∨ s = "Rust" ∨ s = "RUST" ∨ s = "r") ∧
    (matchCore s = some Core.jax ↔
      s = "jax" ∨ s = "Jax" ∨ s = "JAX" ∨ s = "j") ∧
    (matchCore s = some Core.bruteForce ↔
      s = "brute_force" ∨ s = "jax_brute_force" ∨ s = "Jax_brute_force" ∨
        s = "JAX_BRUTE_FORCE" ∨ s = "b") ∧
    (matchCore s = some Core.python ↔
      s = "python" ∨ s = "Python" ∨ s = "PYTHON" ∨ s = "p") ∧
    (matchCore s = none →
      coreErrMsg s = "Incorrect core " ++ s ++
        ", it must be either rust, jax or python") := by
  unfold matchCore coreErrMsg
  split_ifs with h1 h2 h3 h4
  · rcases h1 with rfl | rfl | rfl | rfl <;> simp
  · rcases h2 with rfl | rfl | rfl | rfl <;> simp_all
  · rcases h3 with rfl | rfl | rfl | rfl | rfl <;> simp_all
  · rcases h4 with rfl | rfl | rfl | rfl <;> simp_all
  · simp_all

/-- Witness for C8 at the unrecognized identifier "foo". -/
theorem C8_witness :
    matchCore ("foo") = none ∧
    coreErrMsg ("foo") = "Incorrect core foo, it must be either rust, jax or python" :=
  ⟨rfl, (C8_dispatch_spellings ("foo")).2.2.2.2 rfl⟩

/-- C10: the batch solves, open and closed, leave the capacitance matrices
Cdd, Cdd⁻¹ and Cgd unchanged — the only state the python core writes during
a batch is the warm-started linear term q of the OSQP problem. -/
theorem C10_capacitance_matrices_immutable (qp : List ℚ → List ℚ)
    (nCharge : ℤ) (t : ℚ) (vg : List (List ℚ)) (s : SolverState) :
    ((ground_state_open_python_st qp t vg s).2.cdd = s.cdd ∧
      (ground_state_open_python_st qp t vg s).2.cddInv = s.cddInv ∧
      (ground_state_open_python_st qp t vg s).2.cgd = s.cgd) ∧
    ((ground_state_closed_python_st qp nCharge t vg s).2.cdd = s.cdd ∧
      (ground_state_closed_python_st qp nCharge t vg s).2.cddInv = s.cddInv ∧
      (ground_state_closed_python_st qp nCharge t vg s).2.cgd = s.cgd) :=
  ⟨ground_state_open_python_st_frame qp t vg s,
    ground_state_closed_python_st_frame qp nCharge t vg s⟩

/-- C9: for a valid voltage batch (trailing axis equal to the gate count,
data sized to the shape, positive gate count, the external QP returning
dot-count-length vectors), the open entry point returns an array whose shape
is the input leading dimensions with trailing axis n_dot; the closed entry
point returns an array of that same shape whenever the integer search
succeeds on every point of the batch. -/
theorem C9_batch_shape (qp : List ℚ → List ℚ) (cgd cddInv : List (List ℚ))
    (t : ℚ) (c : ℤ) (nGate nDot : ℕ) (shape : List ℕ) (data : List ℚ)
    (hg : 0 < nGate) (hl : shape.getLast? = some nGate)
    (hd : data.length = shape.prod) (hqp : ∀ q, (qp q).length = nDot) :
    (∃ out, _ground_state_open (_ground_state_open_0d qp cgd cddInv t)
        nGate nDot shape data = Except.ok out ∧
      out.1 = shape.dropLast ++ [nDot]) ∧
    (∀ results, mapOpt (_ground_state_closed_0d qp c cgd cddInv t)
        (chunks nGate data) = some results →
      ∃ out, _ground_state_closed (_ground_state_closed_0d qp c cgd cddInv t)
          c nGate nDot shape data = Except.ok out ∧
        out.1 = shape.dropLast ++ [nDot]) := by
  obtain ⟨L, hshape, hdrop, hprod⟩ := getLast?_shape_struct hl
  have hdata : data.length = L.prod * nGate := by rw [hd, hprod]
  have hdvd : nGate ∣ data.length := ⟨L.prod, by rw [hdata]; ring⟩
  obtain ⟨hrowlen, hchlen⟩ :=
    chunks_spec nGate hg data.length data (le_refl _) hdvd
  have hchn : (chunks nGate data).length = L.prod :=
    Nat.eq_of_mul_eq_mul_right hg (by rw [hchlen, hdata])
  constructor
  · have hall : ∀ v ∈ chunks nGate data, ∃ m,
        _ground_state_open_0d qp cgd cddInv t v = some m := by
      intro v _
      obtain ⟨m, hm, _⟩ := _ground_state_open_0d_spec qp cgd cddInv t v
      exact ⟨m, hm⟩
    obtain ⟨results, hres⟩ := mapOpt_some_of_forall _ _ hall
    have hfa := (mapOpt_eq_some_iff _ _ _).mp hres
    have hlens : ∀ r ∈ results, r.length = nDot := by
      intro r hr
      obtain ⟨v, _, hv⟩ := forall₂_mem_right hfa r hr
      have hmem := _ground_state_open_0d_mem hv
      rw [length_of_mem_openCandList hmem]
      simp [hqp]
    have hnn : assertOpenHolds results = true := by
      rw [assertOpenHolds, List.all_eq_true]
      intro r hr
      rw [List.all_eq_true]
      intro z hz
      obtain ⟨v, _, hv⟩ := forall₂_mem_right hfa r hr
      have hmem := _ground_state_open_0d_mem hv
      have hnc : ∀ x ∈ (qp ((matVec cddInv (matVec cgd v)).map
          (fun a => -a))).map (fun a => max 0 a), (0 : ℚ) ≤ x := by
        intro x hx
        obtain ⟨a, _, rfl⟩ := List.mem_map.mp hx
        exact le_max_left 0 a
      simpa using nonneg_of_mem_openCandList hnc hmem z hz
    have hreslen : results.length = L.prod := by
      rw [← hchn]
      exact (forall₂_length hfa).symm
    have hflat : results.flatten.length = (L ++ [nDot]).prod := by
      rw [flatten_length_of_rows nDot results hlens, hreslen]
      simp
    refine ⟨(L ++ [nDot], results.flatten), ?_, by rw [hdrop]⟩
    unfold _ground_state_open
    rw [hl]
    simp [hres, hnn, reshapeTo, hdrop, hflat]
  · intro results hres
    have hfa := (mapOpt_eq_some_iff _ _ _).mp hres
    have hsums : ∀ r ∈ results, r.sum = c := by
      intro r hr
      obtain ⟨v, _, hv⟩ := forall₂_mem_right hfa r hr
      exact (_ground_state_closed_0d_sum qp c cgd cddInv t v r hv).1
    have hlens : ∀ r ∈ results, r.length = nDot := by
      intro r hr
      obtain ⟨v, _, hv⟩ := forall₂_mem_right hfa r hr
      rw [(_ground_state_closed_0d_sum qp c cgd cddInv t v r hv).2]
      exact hqp _
    have hok : assertClosedHolds c results = true := by
      rw [assertClosedHolds, List.all_eq_true]
      intro r hr
      rw [decide_eq_true_eq, hsums r hr]
      unfold iscloseInt
      simp only [sub_self, abs_zero]
      positivity
    have hreslen : results.length = L.prod := by
      rw [← hchn]
      exact (forall₂_length hfa).symm
    have hflat : results.flatten.length = (L ++ [nDot]).prod := by
      rw [flatten_length_of_rows nDot results hlens, hreslen]
      simp
    refine ⟨(L ++ [nDot], results.flatten), ?_, by rw [hdrop]⟩
    unfold _ground_state_closed
    rw [hl]
    simp [hres, hok, reshapeTo, hdrop, hflat]

/-- Witness for C9 at a 2-point batch of shape [2, 1], one gate, one dot:
both entry points return arrays of shape [2, 1]. -/
theorem C9_witness :
    (0 : ℕ) < 1 ∧
    (∃ out, _ground_state_open
        (_ground_state_open_0d (fun _ => [(1:ℚ)/2]) [[1]] [[1]] 1)
        1 1 [2, 1] [0, 0] = Except.ok out ∧
      out.1 = List.dropLast [2, 1] ++ [1]) ∧
    (∃ out, _ground_state_closed
        (_ground_state_closed_0d (fun _ => [(1:ℚ)/2]) 1 [[1]] [[1]] 1)
        1 1 1 [2, 1] [0, 0] = Except.ok out ∧
      out.1 = List.dropLast [2, 1] ++ [1]) := by
  have h := C9_batch_shape (fun _ => [(1:ℚ)/2]) [[1]] [[1]] 1 1 1 1 [2, 1]
    [0, 0] (by omega) rfl rfl (fun _ => rfl)
  exact ⟨by omega, h.1, h.2 [[1], [1]] (by with_unfolding_all rfl)⟩

end QArray
